import Mathlib

/-!
Verification of the chemic-ally dilution solver and formula/SMILES normalizer.

The dilution solver is embedded from `src/apps/webapp/calculations/base.py`
(`DilutionCalculator.calculate`) together with the validation performed by
`SolutionForm.clean` in `src/apps/webapp/forms.py`; the composite is the
spec's `solve`.  Magnitudes are modelled as exact rationals (the code uses
Python floats); pint quantities are modelled as a magnitude together with an
enumerated unit, and unit conversion multiplies by the unit's factor to the
base unit (mol/L for concentrations, L for volumes).  `missing_value` is
recorded as the physical magnitude in the base unit; pint's `to_compact()`
only rescales the displayed unit and preserves the physical quantity.

The normalizer is embedded from `FormulaListField.parse_list` /
`FormulaListField.validate` in `src/apps/webapp/forms.py` and
`smiles_to_formula` in `src/apps/webapp/utils/formula.py`.  The external
chemistry libraries (chempy's formula parser and the pysmiles SMILES
decoder) are modelled as an explicit oracle record `ChemLib`.
-/

namespace ChemicAlly

/-- Decidable equality for `Except`, used to evaluate solver results. -/
instance {ε α : Type} [DecidableEq ε] [DecidableEq α] : DecidableEq (Except ε α)
  | .error e, .error f =>
      if h : e = f then .isTrue (by rw [h])
      else .isFalse (fun hh => Except.noConfusion hh (fun he => h he))
  | .error _, .ok _ => .isFalse (fun hh => Except.noConfusion hh)
  | .ok _, .error _ => .isFalse (fun hh => Except.noConfusion hh)
  | .ok a, .ok b =>
      if h : a = b then .isTrue (by rw [h])
      else .isFalse (fun hh => Except.noConfusion hh (fun he => h he))

/-- Concentration units offered by `SolutionForm.CONCENTRATION_CHOICES`. -/
inductive ConcUnit
  | molL
  | mmolL
  | umolL
  | nmolL
  | pmolL
deriving DecidableEq, Repr

/-- Conversion factor of a concentration unit to mol/L (pint `.to("mol/l")`). -/
def ConcUnit.factor : ConcUnit → ℚ
  | .molL => 1
  | .mmolL => 1 / 1000
  | .umolL => 1 / 1000000
  | .nmolL => 1 / 1000000000
  | .pmolL => 1 / 1000000000000

/-- Volume units offered by `SolutionForm.VOLUME_CHOICES`. -/
inductive VolUnit
  | L
  | mL
  | uL
  | nL
  | pL
deriving DecidableEq, Repr

/-- Conversion factor of a volume unit to liters (pint `.to("l")`). -/
def VolUnit.factor : VolUnit → ℚ
  | .L => 1
  | .mL => 1 / 1000
  | .uL => 1 / 1000000
  | .nL => 1 / 1000000000
  | .pL => 1 / 1000000000000

/-- The four dilution slots as passed to `DilutionCalculator.calculate`:
each magnitude is optional (the missing slot is `none`) and carries a unit. -/
structure DilutionInput where
  c1 : Option ℚ
  c1_unit : ConcUnit
  v1 : Option ℚ
  v1_unit : VolUnit
  c2 : Option ℚ
  c2_unit : ConcUnit
  v2 : Option ℚ
  v2_unit : VolUnit
deriving DecidableEq, Repr

/-- Error taxonomy of the spec: `InvalidInputError` covers the wrong count of
missing fields and non-positive provided values; `InconsistencyError` covers
the volume/concentration ordering checks. -/
inductive DilutionError
  | invalidInput
  | inconsistency
deriving DecidableEq, Repr

/-- Result record of `DilutionCalculator.calculate`: the missing slot's name,
its value (physical magnitude in the base unit), and the optional mass. -/
structure DilutionResult where
  missing_property : String
  missing_value : ℚ
  mass_g : Option ℚ
deriving DecidableEq, Repr

/-- Number of missing slots (`missing_key = [k for k in values if ... is None]`). -/
def DilutionInput.missingCount (i : DilutionInput) : Nat :=
  ([i.c1, i.v1, i.c2, i.v2].countP (fun o => o.isNone))

/-- True when some provided value is `<= 0` (`if value is not None and value <= 0`
in `SolutionForm.clean`). -/
def DilutionInput.anyNonpositive (i : DilutionInput) : Bool :=
  ([i.c1, i.v1, i.c2, i.v2].any (fun o =>
    match o with
    | some v => decide (v ≤ 0)
    | none => false))

/-- Volume ordering check of `SolutionForm.clean`: both volumes present and
`v1.to("liter").magnitude >= v2.to("liter").magnitude`. -/
def DilutionInput.volInconsistent (i : DilutionInput) : Bool :=
  match i.v1, i.v2 with
  | some a, some b => decide (b * i.v2_unit.factor ≤ a * i.v1_unit.factor)
  | _, _ => false

/-- Concentration ordering check of `SolutionForm.clean`: both concentrations
present and `c1.to("mol/liter").magnitude < c2.to("mol/liter").magnitude`. -/
def DilutionInput.concInconsistent (i : DilutionInput) : Bool :=
  match i.c1, i.c2 with
  | some a, some b => decide (a * i.c1_unit.factor < b * i.c2_unit.factor)
  | _, _ => false

/-- Python truthiness of an optional float: `None` and `0.0` are falsy. -/
def pyTruthy (o : Option ℚ) : Bool :=
  match o with
  | none => false
  | some v => decide (¬ v = 0)

/-- The molecular weight `DilutionCalculator.calculate` ends up with:
`mw = molecular_weight; if not mw and solute_formula: mw = <chempy lookup>`.
`formulaMass` models the outcome of the external
`Substance.from_formula(solute_formula).mass` call (`none` when it raises). -/
def effectiveMW (molecular_weight : Option ℚ) (soluteFormulaGiven : Bool)
    (formulaMass : Option ℚ) : Option ℚ :=
  if !(pyTruthy molecular_weight) && soluteFormulaGiven then formulaMass
  else molecular_weight

/-- Embedding of `DilutionCalculator.calculate` (base.py lines 112-177).
Raises `ValueError` (modelled as `invalidInput`) unless exactly one slot is
missing, solves `c1*v1 = c2*v2` for the missing slot with pint-style unit
conversion, and appends the mass when the effective molecular weight is truthy
and both `c2` and `v2` were provided. -/
def calculate (i : DilutionInput) (mwEff : Option ℚ) :
    Except DilutionError DilutionResult :=
  if i.missingCount ≠ 1 then .error .invalidInput
  else
    let res : Option (String × ℚ) :=
      match i.c1, i.v1, i.c2, i.v2 with
      | none, some v1, some c2, some v2 =>
          some ("c1", (c2 * i.c2_unit.factor * (v2 * i.v2_unit.factor)) /
            (v1 * i.v1_unit.factor))
      | some c1, none, some c2, some v2 =>
          some ("v1", (c2 * i.c2_unit.factor * (v2 * i.v2_unit.factor)) /
            (c1 * i.c1_unit.factor))
      | some c1, some v1, none, some v2 =>
          some ("c2", (c1 * i.c1_unit.factor * (v1 * i.v1_unit.factor)) /
            (v2 * i.v2_unit.factor))
      | some c1, some v1, some c2, none =>
          some ("v2", (c1 * i.c1_unit.factor * (v1 * i.v1_unit.factor)) /
            (c2 * i.c2_unit.factor))
      | _, _, _, _ => none
    match res with
    | none => .error .invalidInput
    | some (miss, val) =>
        let mass : Option ℚ :=
          match mwEff, i.c2, i.v2 with
          | some m, some c2, some v2 =>
              if ¬ m = 0 then
                some ((c2 * i.c2_unit.factor) * (v2 * i.v2_unit.factor) * m)
              else none
          | _, _, _ => none
        .ok { missing_property := miss, missing_value := val, mass_g := mass }

/-- The spec's `solve`: the validation of `SolutionForm.clean` (slot count,
positivity, volume ordering, concentration ordering, in that order) followed
by `DilutionCalculator.calculate`. -/
def solve (i : DilutionInput) (molecular_weight : Option ℚ)
    (soluteFormulaGiven : Bool) (formulaMass : Option ℚ) :
    Except DilutionError DilutionResult :=
  if i.missingCount ≠ 1 then .error .invalidInput
  else if i.anyNonpositive then .error .invalidInput
  else if i.volInconsistent then .error .inconsistency
  else if i.concInconsistent then .error .inconsistency
  else calculate i (effectiveMW molecular_weight soluteFormulaGiven formulaMass)

/-- Name of the first missing slot, in the iteration order of `calculate`. -/
def DilutionInput.missingName (i : DilutionInput) : String :=
  if i.c1.isNone then "c1"
  else if i.v1.isNone then "v1"
  else if i.c2.isNone then "c2"
  else "v2"

/-- Value of a slot converted to its base unit, with the missing slot filled
by `x`; used to state the conservation law `c1*v1 = c2*v2` uniformly. -/
def filled (o : Option ℚ) (f : ℚ) (x : ℚ) : ℚ :=
  match o with
  | some v => v * f
  | none => x

/-- Mass value computed by `calculate` as a function of the effective
molecular weight and the provided final concentration and volume. -/
def massSpec (mwEff : Option ℚ) (i : DilutionInput) : Option ℚ :=
  match mwEff, i.c2, i.v2 with
  | some m, some c2, some v2 =>
      if ¬ m = 0 then some ((c2 * i.c2_unit.factor) * (v2 * i.v2_unit.factor) * m)
      else none
  | _, _, _ => none

/-! Formula/species normalizer, from `FormulaListField` in
`src/apps/webapp/forms.py`.  Characters are modelled at the ASCII level
(all tokens the application handles are ASCII): the separator class
`[\s,;]` and the word class `\w` of the regexes become `isSep` and
`isWordChar`. -/

/-- Separator class of `FormulaListField.default_separators = r"[\s,;]+"`. -/
def isSep (c : Char) : Bool :=
  c.isWhitespace || c = ',' || c = ';'

/-- Word class `\w` of the inner split regex `(?<=\w)\+(?=\w)`. -/
def isWordChar (c : Char) : Bool :=
  c.isAlphanum || c = '_'

/-- Python `str.strip()`: drop whitespace from both ends. -/
def pyStrip (l : List Char) : List Char :=
  ((l.dropWhile Char.isWhitespace).reverse.dropWhile Char.isWhitespace).reverse

/-- `re.split(r"[\s,;]+", value)`: segments between maximal separator runs
(empty segments appear at the ends, never in the middle, exactly as with
`re.split` on a `+`-quantified class). -/
def reSplitSeps : List Char → List (List Char)
  | [] => [[]]
  | c :: rest =>
    let r := reSplitSeps rest
    if isSep c then
      match rest with
      | d :: _ => if isSep d then r else [] :: r
      | [] => [] :: r
    else
      match r with
      | s :: ss => (c :: s) :: ss
      | [] => [[c]]

/-- True when the list starts with a word character (the lookahead `(?=\w)`). -/
def headWord : List Char → Bool
  | d :: _ => isWordChar d
  | [] => false

/-- Prepend a character to the first chunk of a split result. -/
def consHead (c : Char) : List (List Char) → List (List Char)
  | s :: ss => (c :: s) :: ss
  | [] => [[c]]

/-- Worker for `splitPlus`: `prev` is the character just consumed (the
lookbehind `(?<=\w)`). -/
def splitPlusGo (prev : Char) : List Char → List (List Char)
  | [] => [[]]
  | c :: rest =>
    if c = '+' && isWordChar prev && headWord rest then
      [] :: splitPlusGo c rest
    else
      consHead c (splitPlusGo c rest)

/-- `re.split(r"(?<=\w)\+(?=\w)", token)`: split the token at every `+`
having a word character immediately before and after it. -/
def splitPlus : List Char → List (List Char)
  | [] => [[]]
  | c :: rest => consHead c (splitPlusGo c rest)

/-- Body of the token loop of `FormulaListField.parse_list`: strip the
token, skip it when empty or a bare `+`, otherwise split at interior `+`
and keep the non-empty stripped parts. -/
def processToken (tok : List Char) : List (List Char) :=
  let t := pyStrip tok
  if t = [] || t = ['+'] then []
  else
    (splitPlus t).filterMap (fun p =>
      let q := pyStrip p
      if q = [] then none else some q)

/-- `FormulaListField.parse_list` on character lists. -/
def parse_listL (value : List Char) : List (List Char) :=
  (reSplitSeps value).flatMap processToken

/-- `FormulaListField.parse_list`: split the raw input into formula tokens. -/
def parse_list (value : String) : List String :=
  (parse_listL value.data).map (fun l => ⟨l⟩)

/-! Token classification heuristic of `FormulaListField.validate`. -/

/-- `re.search(r"[+-]\d*$", formula)`: after removing trailing digits the
token ends in `+` or `-`. -/
def chargeSuffixMatch (s : List Char) : Bool :=
  match (s.reverse.dropWhile Char.isDigit) with
  | c :: _ => c = '+' || c = '-'
  | [] => false

/-- `re.search(r"[A-Z][a-z]", formula)`: some uppercase letter is
immediately followed by a lowercase letter. -/
def upperLower : List Char → Bool
  | a :: b :: rest => (a.isUpper && b.isLower) || upperLower (b :: rest)
  | _ => false

/-- Python `str.isalpha()` (false on the empty string). -/
def pyIsAlpha (s : List Char) : Bool :=
  !(s.isEmpty) && s.all Char.isAlpha

/-- The "looks like a formula" heuristic of `FormulaListField.validate`:
charge suffix, or a multi-letter element symbol, or a short all-letter
token not exclusively composed of carbon. -/
def looksLikeFormula (s : List Char) : Bool :=
  chargeSuffixMatch s || upperLower s ||
    (pyIsAlpha s && decide (s.length ≤ 2) && s.any (fun c => c ≠ 'C'))

/-! SMILES-derived formula rendering, from `smiles_to_formula` in
`src/apps/webapp/utils/formula.py`. -/

/-- Result of decoding a SMILES string into an explicit-hydrogen molecular
graph: the per-element atom tally (`Counter`, an association list with
distinct keys) and the total formal charge. -/
structure Molecule where
  counts : List (String × Nat)
  charge : Int
deriving DecidableEq, Repr

/-- Lookup of an element's count in a `Counter` association list. -/
def lookupCount (el : String) : List (String × Nat) → Option Nat
  | [] => none
  | p :: rest => if p.1 = el then some p.2 else lookupCount el rest

/-- Removal of an element's entry (`counts.pop(el)`). -/
def removeKey (el : String) (l : List (String × Nat)) : List (String × Nat) :=
  l.filter (fun p => decide (¬ p.1 = el))

/-- Key list contributed by one element: `[e]` when present, `[]` otherwise. -/
def optKey (e : String) (l : List (String × Nat)) : List String :=
  match lookupCount e l with
  | some _ => [e]
  | none => []

/-- One rendered element: `f"{el}{num if num > 1 else ''}"`. -/
def entryStr (el : String) (n : Nat) : String :=
  el ++ (if 1 < n then toString n else "")

/-- Charge suffix rendering at the end of `smiles_to_formula`. -/
def chargeSuffixStr (charge : Int) : String :=
  if 0 < charge then (if 1 < charge then toString charge else "") ++ "+"
  else if charge < 0 then (if charge < -1 then toString (-charge) else "") ++ "-"
  else ""

/-- Embedding of `smiles_to_formula` (the rendering stage, after the
external pysmiles decode): carbon first, hydrogen second, remaining
elements sorted alphabetically, then the charge suffix. -/
def smiles_to_formula (m : Molecule) : String :=
  let counts := m.counts
  let cPart : List String :=
    match lookupCount "C" counts with
    | some n => [entryStr "C" n]
    | none => []
  let rest1 := removeKey "C" counts
  let hPart : List String :=
    match lookupCount "H" rest1 with
    | some n => [entryStr "H" n]
    | none => []
  let rest2 := removeKey "H" rest1
  let keys := List.insertionSort (fun a b => a ≤ b) (rest2.map Prod.fst)
  let restParts := keys.map (fun el => entryStr el ((lookupCount el rest2).getD 0))
  String.join (cPart ++ hPart ++ restParts) ++ chargeSuffixStr m.charge

/-- Rank realizing the spec's element order: carbon first, hydrogen second,
every other element after. -/
def elemRank (e : String) : Nat :=
  if e = "C" then 0 else if e = "H" then 1 else 2

/-- The spec's canonical element order: by rank, alphabetically within a
rank. -/
def canonOrder (a b : String) : Prop :=
  elemRank a < elemRank b ∨ (elemRank a = elemRank b ∧ a ≤ b)

instance : DecidableRel canonOrder := fun a b => by
  unfold canonOrder
  infer_instance

/-- Canonical formula as worded by the spec: all elements listed in the
canonical order (carbon, hydrogen, rest alphabetically), each with its
count (omitted when exactly 1), followed by the charge suffix. -/
def canonicalFormulaSpec (m : Molecule) : String :=
  let keys := List.insertionSort canonOrder (m.counts.map Prod.fst)
  String.join (keys.map (fun el => entryStr el ((lookupCount el m.counts).getD 0))) ++
    chargeSuffixStr m.charge

/-! The external chemistry libraries and the validation loop. -/

/-- Oracle record for the two external libraries used by
`FormulaListField.validate`: `fromFormulaOk s` tells whether chempy's
`Substance.from_formula(s)` succeeds, and `readSmiles s` is the molecule
returned by `pysmiles.read_smiles(s, explicit_hydrogen=True)` (`none` when
it raises). -/
structure ChemLib where
  fromFormulaOk : String → Bool
  readSmiles : String → Option Molecule

/-- One iteration of the validation loop of `FormulaListField.validate`:
formula-heuristic tokens that chempy accepts pass through unchanged;
otherwise the token is decoded as SMILES and replaced by its canonical
formula; otherwise it falls back to direct formula parsing; `none` models
`ValidationError` (the spec's `InvalidSpeciesError`). -/
def validateToken (lib : ChemLib) (t : String) : Option String :=
  if looksLikeFormula t.data && lib.fromFormulaOk t then some t
  else
    match lib.readSmiles t with
    | some m => some (smiles_to_formula m)
    | none => if lib.fromFormulaOk t then some t else none

/-- `FormulaListField.validate` over an already-split token list: resolve
each token in order, failing as soon as one token fails. -/
def validate (lib : ChemLib) : List String → Option (List String)
  | [] => some []
  | t :: rest =>
    match validateToken lib t, validate lib rest with
    | some t2, some rest2 => some (t2 :: rest2)
    | _, _ => none

/-- The spec's `normalize`: split, then validate/resolve each token. -/
def normalize (lib : ChemLib) (raw : String) : Option (List String) :=
  validate lib (parse_list raw)

/-- Modelled from the spec: the behavior of the external libraries (chempy's
`Substance.from_formula` and pysmiles' `read_smiles`, which are not part of
this repository) on the concrete tokens appearing in the spec's examples.
`read_smiles` follows the spec's step 2b (decode into an explicit-hydrogen
molecular graph, standard SMILES semantics): `CCO` is ethanol, `[NH4+]`
ammonium, `C` methane, `CC` ethane (the repository's own test suite pins
`CCO → C2H6O`, `[NH4+] → H4N+` and `CC → C2H6`), and `[C]` a bare carbon
atom; plain formula tokens such as `H2O`, `CO2` or `CH4` are not valid
SMILES (unmatched ring-bond digits / non-organic-subset symbols), so
decoding them fails.  `from_formula` succeeds on the ordinary formulas
involved. -/
def exLib : ChemLib where
  fromFormulaOk := fun s =>
    s ∈ (["H2O", "CO2", "C", "CC", "CH4", "C2H6", "C2H6O",
          "H4N+", "NH4+", "Cl-", "O2", "NaOH", "NaCl"] : List String)
  readSmiles := fun s =>
    if s = "CCO" then some ⟨[("C", 2), ("H", 6), ("O", 1)], 0⟩
    else if s = "[NH4+]" then some ⟨[("N", 1), ("H", 4)], 1⟩
    else if s = "C" then some ⟨[("C", 1), ("H", 4)], 0⟩
    else if s = "CC" then some ⟨[("C", 2), ("H", 6)], 0⟩
    else if s = "[C]" then some ⟨[("C", 1)], 0⟩
    else none

end ChemicAlly

namespace ChemicAlly

theorem reSplitSeps_ne_nil (l : List Char) : reSplitSeps l ≠ [] := by
  induction l with
  | nil => simp [reSplitSeps]
  | cons a rest ih =>
    simp only [reSplitSeps]
    split
    · rcases rest with _ | ⟨d, rest'⟩ <;> simp_all <;> split <;> simp_all
    · split <;> simp_all

theorem reSplitSeps_chars (l : List Char) :
    ∀ s ∈ reSplitSeps l, ∀ c ∈ s, c ∈ l ∧ isSep c = false := by
  induction l with
  | nil => simp [reSplitSeps]
  | cons a rest ih =>
    intro s hs c hc
    simp only [reSplitSeps] at hs
    by_cases ha : isSep a
    · rw [if_pos ha] at hs
      rcases rest with _ | ⟨d, rest'⟩
      · simp only [reSplitSeps, List.mem_cons, List.not_mem_nil, or_false] at hs
        rcases hs with hs | hs <;> (subst hs; simp at hc)
      · dsimp only at hs
        by_cases hd : isSep d
        · rw [if_pos hd] at hs
          have := ih s hs c hc
          exact ⟨List.mem_cons_of_mem _ this.1, this.2⟩
        · rw [if_neg hd] at hs
          rcases List.mem_cons.1 hs with hs | hs
          · subst hs; simp at hc
          · have := ih s hs c hc
            exact ⟨List.mem_cons_of_mem _ this.1, this.2⟩
    · rw [if_neg ha] at hs
      rcases hr : reSplitSeps rest with _ | ⟨s', ss⟩
      · rw [hr] at hs
        simp only [List.mem_cons, List.not_mem_nil, or_false] at hs
        subst hs
        rcases List.mem_cons.1 hc with hc | hc
        · subst hc
          exact ⟨List.mem_cons_self _ _, by simpa using ha⟩
        · simp at hc
      · rw [hr] at hs
        rcases List.mem_cons.1 hs with hs | hs
        · subst hs
          rcases List.mem_cons.1 hc with hc | hc
          · subst hc
            exact ⟨List.mem_cons_self _ _, by simpa using ha⟩
          · have hmem : s' ∈ reSplitSeps rest := by rw [hr]; exact List.mem_cons_self _ _
            have := ih s' hmem c hc
            exact ⟨List.mem_cons_of_mem _ this.1, this.2⟩
        · have hmem : s ∈ reSplitSeps rest := by rw [hr]; exact List.mem_cons_of_mem _ hs
          have := ih s hmem c hc
          exact ⟨List.mem_cons_of_mem _ this.1, this.2⟩

end ChemicAlly

namespace ChemicAlly

theorem splitPlusGo_ne_nil (prev : Char) (l : List Char) : splitPlusGo prev l ≠ [] := by
  induction l generalizing prev with
  | nil => simp [splitPlusGo]
  | cons c rest ih =>
    simp only [splitPlusGo]
    split
    · simp
    · rcases hr : splitPlusGo c rest with _ | ⟨s, ss⟩
      · exact absurd hr (ih c)
      · simp [consHead]

theorem splitPlusGo_chars (prev : Char) (l : List Char) :
    ∀ p ∈ splitPlusGo prev l, ∀ c ∈ p, c ∈ l := by
  induction l generalizing prev with
  | nil => simp [splitPlusGo]
  | cons a rest ih =>
    intro p hp c hc
    simp only [splitPlusGo] at hp
    split at hp
    · rcases List.mem_cons.1 hp with hp | hp
      · subst hp; simp at hc
      · exact List.mem_cons_of_mem _ (ih a p hp c hc)
    · rcases hr : splitPlusGo a rest with _ | ⟨s, ss⟩
      · exact absurd hr (splitPlusGo_ne_nil a rest)
      · rw [hr] at hp
        simp only [consHead] at hp
        rcases List.mem_cons.1 hp with hp | hp
        · subst hp
          rcases List.mem_cons.1 hc with hc | hc
          · subst hc; exact List.mem_cons_self _ _
          · have : s ∈ splitPlusGo a rest := by rw [hr]; exact List.mem_cons_self _ _
            exact List.mem_cons_of_mem _ (ih a s this c hc)
        · have : p ∈ splitPlusGo a rest := by rw [hr]; exact List.mem_cons_of_mem _ hp
          exact List.mem_cons_of_mem _ (ih a p this c hc)

theorem splitPlusGo_tail_word (prev : Char) (l : List Char) :
    ∀ s ss, splitPlusGo prev l = s :: ss → ∀ p ∈ ss, ∃ d w, p = d :: w ∧ isWordChar d = true := by
  induction l generalizing prev with
  | nil => intro s ss h p hp; simp [splitPlusGo] at h; rcases h with ⟨h1, h2⟩; subst h2; simp at hp
  | cons a rest ih =>
    intro s ss h p hp
    simp only [splitPlusGo] at h
    split at h
    · rename_i hcond
      -- h : [] :: splitPlusGo a rest = s :: ss
      rcases h with ⟨⟩
      -- h gives s = [], ss = splitPlusGo a rest
      -- p ∈ splitPlusGo a rest, first element starts with head of rest (a word char)
      rcases hr : splitPlusGo a rest with _ | ⟨s', ss'⟩
      · exact absurd hr (splitPlusGo_ne_nil a rest)
      · rw [hr] at hp
        rcases List.mem_cons.1 hp with hp | hp
        · subst hp
          -- first part of splitPlusGo a rest where rest has word head
          simp only [Bool.and_eq_true, decide_eq_true_eq] at hcond
          obtain ⟨⟨-, -⟩, hw⟩ := hcond
          rcases rest with _ | ⟨d, rest'⟩
          · simp [headWord] at hw
          · simp only [headWord] at hw
            -- splitPlusGo a (d :: rest') = s' :: ss', d is a word char, show s' starts with d
            simp only [splitPlusGo] at hr
            split at hr
            · rename_i hcond2
              simp only [Bool.and_eq_true, decide_eq_true_eq] at hcond2
              obtain ⟨⟨hd2, -⟩, -⟩ := hcond2
              rw [hd2] at hw
              simp [isWordChar] at hw
            · rcases hr2 : splitPlusGo d rest' with _ | ⟨s2, ss2⟩
              · exact absurd hr2 (splitPlusGo_ne_nil d rest')
              · rw [hr2] at hr
                simp only [consHead] at hr
                rcases hr with ⟨⟩
                exact ⟨d, s2, rfl, hw⟩
        · exact ih a s' ss' hr p hp
    · rcases hr : splitPlusGo a rest with _ | ⟨s', ss'⟩
      · exact absurd hr (splitPlusGo_ne_nil a rest)
      · rw [hr] at h
        simp only [consHead] at h
        injection h with h1 h2
        refine ih a s' ss' hr p ?_
        rw [h2]
        exact hp

end ChemicAlly

namespace ChemicAlly

theorem splitPlusGo_head_nil (prev : Char) (l : List Char) (ss : List (List Char))
    (h : splitPlusGo prev l = [] :: ss) :
    (l = [] ∧ ss = []) ∨ isWordChar prev = true := by
  rcases l with _ | ⟨c, rest⟩
  · simp only [splitPlusGo] at h
    injection h with h1 h2
    exact Or.inl ⟨rfl, h2.symm⟩
  · simp only [splitPlusGo] at h
    split at h
    · rename_i hcond
      simp only [Bool.and_eq_true, decide_eq_true_eq] at hcond
      exact Or.inr hcond.1.2
    · rcases hr : splitPlusGo c rest with _ | ⟨s', ss'⟩
      · exact absurd hr (splitPlusGo_ne_nil c rest)
      · rw [hr] at h
        simp only [consHead] at h
        injection h with h1 h2
        exact absurd h1 (by simp)

theorem splitPlus_parts_ne_plus (t : List Char) (ht : t ≠ ['+']) :
    ∀ p ∈ splitPlus t, p ≠ ['+'] := by
  intro p hp
  rcases t with _ | ⟨c, rest⟩
  · simp only [splitPlus, List.mem_singleton] at hp
    subst hp
    simp
  · simp only [splitPlus] at hp
    rcases hr : splitPlusGo c rest with _ | ⟨s', ss'⟩
    · exact absurd hr (splitPlusGo_ne_nil c rest)
    · rw [hr] at hp
      simp only [consHead] at hp
      rcases List.mem_cons.1 hp with hp | hp
      · subst hp
        intro hq
        injection hq with hq1 hq2
        subst hq1
        subst hq2
        rcases splitPlusGo_head_nil '+' rest ss' hr with ⟨h1, h2⟩ | h
        · subst h1; subst h2; exact ht rfl
        · simp [isWordChar] at h
      · obtain ⟨d, w, hpw, hd⟩ := splitPlusGo_tail_word c rest s' ss' hr p hp
        intro hq
        rw [hq] at hpw
        injection hpw with h1 h2
        rw [← h1] at hd
        simp [isWordChar] at hd

theorem splitPlusGo_noPlus (prev : Char) (l : List Char) (h : '+' ∉ l) :
    splitPlusGo prev l = [l] := by
  induction l generalizing prev with
  | nil => simp [splitPlusGo]
  | cons c rest ih =>
    have hc : ¬ c = '+' := fun hc => h (hc ▸ List.mem_cons_self _ _)
    have hrest : '+' ∉ rest := fun hm => h (List.mem_cons_of_mem _ hm)
    simp only [splitPlusGo]
    rw [if_neg (by simp [hc])]
    rw [ih c hrest]
    simp [consHead]

theorem splitPlus_noPlus (t : List Char) (h : '+' ∉ t) : splitPlus t = [t] := by
  rcases t with _ | ⟨c, rest⟩
  · simp [splitPlus]
  · have hrest : '+' ∉ rest := fun hm => h (List.mem_cons_of_mem _ hm)
    simp [splitPlus, splitPlusGo_noPlus c rest hrest, consHead]

end ChemicAlly

namespace ChemicAlly

theorem splitPlus_chars (t : List Char) :
    ∀ p ∈ splitPlus t, ∀ c ∈ p, c ∈ t := by
  intro p hp c hc
  rcases t with _ | ⟨a, rest⟩
  · simp only [splitPlus, List.mem_singleton] at hp
    subst hp
    simp at hc
  · simp only [splitPlus] at hp
    rcases hr : splitPlusGo a rest with _ | ⟨s', ss'⟩
    · exact absurd hr (splitPlusGo_ne_nil a rest)
    · rw [hr] at hp
      simp only [consHead] at hp
      rcases List.mem_cons.1 hp with hp | hp
      · subst hp
        rcases List.mem_cons.1 hc with hc | hc
        · subst hc; exact List.mem_cons_self _ _
        · have : s' ∈ splitPlusGo a rest := by rw [hr]; exact List.mem_cons_self _ _
          exact List.mem_cons_of_mem _ (splitPlusGo_chars a rest s' this c hc)
      · have : p ∈ splitPlusGo a rest := by rw [hr]; exact List.mem_cons_of_mem _ hp
        exact List.mem_cons_of_mem _ (splitPlusGo_chars a rest p this c hc)

theorem dropWhile_eq_self_of (l : List Char) (p : Char → Bool)
    (h : ∀ c ∈ l, p c = false) : l.dropWhile p = l := by
  rcases l with _ | ⟨c, rest⟩
  · rfl
  · rw [List.dropWhile_cons_of_neg]
    simp [h c (List.mem_cons_self _ _)]

theorem pyStrip_no_ws (l : List Char) (h : ∀ c ∈ l, c.isWhitespace = false) :
    pyStrip l = l := by
  unfold pyStrip
  rw [dropWhile_eq_self_of l _ h]
  rw [dropWhile_eq_self_of _ _ (fun c hc => h c (List.mem_reverse.1 hc))]
  exact List.reverse_reverse l

theorem pyStrip_subset (l : List Char) : ∀ c ∈ pyStrip l, c ∈ l := by
  intro c hc
  unfold pyStrip at hc
  rw [List.mem_reverse] at hc
  have h1 := (List.dropWhile_sublist (l := (l.dropWhile Char.isWhitespace).reverse)
    (p := Char.isWhitespace)).subset hc
  rw [List.mem_reverse] at h1
  exact (List.dropWhile_sublist (l := l) (p := Char.isWhitespace)).subset h1

theorem isSep_false_not_ws (c : Char) (h : isSep c = false) : c.isWhitespace = false := by
  simp only [isSep, Bool.or_eq_false_iff] at h
  exact h.1.1

theorem parse_listL_props (value : List Char) :
    ∀ t ∈ parse_listL value, t ≠ [] ∧ t ≠ ['+'] := by
  intro t ht
  unfold parse_listL at ht
  rw [List.mem_flatMap] at ht
  obtain ⟨tok, htok, hparts⟩ := ht
  have hchars := reSplitSeps_chars value tok htok
  unfold processToken at hparts
  dsimp only at hparts
  split at hparts
  · simp at hparts
  · rename_i hcond
    rw [List.mem_filterMap] at hparts
    obtain ⟨p, hp, hq⟩ := hparts
    split at hq
    · exact absurd hq (by simp)
    · rename_i hqne
      injection hq with hq
      subst hq
      refine ⟨hqne, ?_⟩
      -- parts carry no whitespace, so the inner strip is the identity
      have ht0chars : ∀ c ∈ pyStrip tok, isSep c = false := fun c hc =>
        (hchars c (pyStrip_subset tok c hc)).2
      have hpchars : ∀ c ∈ p, c.isWhitespace = false := fun c hc =>
        isSep_false_not_ws c (ht0chars c (splitPlus_chars _ p hp c hc))
      rw [pyStrip_no_ws p hpchars]
      have ht0 : pyStrip tok ≠ ['+'] := by
        intro he
        rw [he] at hcond
        simp at hcond
      exact splitPlus_parts_ne_plus _ ht0 p hp

theorem parse_listL_ws (value : List Char) (h : ∀ c ∈ value, c.isWhitespace = true) :
    parse_listL value = [] := by
  unfold parse_listL
  rw [List.flatMap_eq_nil_iff]
  intro s hs
  have hnil : s = [] := by
    rcases s with _ | ⟨c, rest⟩
    · rfl
    · have h2 := reSplitSeps_chars value _ hs c (List.mem_cons_self _ _)
      have hw := h c h2.1
      have := isSep_false_not_ws c h2.2
      rw [hw] at this
      exact absurd this (by simp)
  subst hnil
  simp [processToken, pyStrip]

end ChemicAlly

namespace ChemicAlly

theorem isWordChar_not_sep (c : Char) (h : isWordChar c = true) : isSep c = false := by
  by_contra hc
  rw [Bool.not_eq_false] at hc
  simp only [isSep, Bool.or_eq_true] at hc
  rcases hc with (hw | hc) | hc
  · simp only [Char.isWhitespace, Bool.or_eq_true, decide_eq_true_eq] at hw
    rcases hw with ((h1 | h1) | h1) | h1 <;> (subst h1; exact absurd h (by decide))
  · rw [decide_eq_true_eq] at hc
    subst hc
    exact absurd h (by decide)
  · rw [decide_eq_true_eq] at hc
    subst hc
    exact absurd h (by decide)

theorem isWordChar_ne_plus (c : Char) (h : isWordChar c = true) : ¬ c = '+' := by
  intro hc
  subst hc
  exact absurd h (by decide)

theorem reSplitSeps_cons (a : Char) (rest : List Char) :
    reSplitSeps (a :: rest) =
      (if isSep a then
        (match rest with
         | d :: _ => if isSep d then reSplitSeps rest else [] :: reSplitSeps rest
         | [] => [] :: reSplitSeps rest)
      else
        (match reSplitSeps rest with
         | s :: ss => (a :: s) :: ss
         | [] => [[a]])) := rfl

theorem splitPlusGo_cons (prev c : Char) (rest : List Char) :
    splitPlusGo prev (c :: rest) =
      (if c = '+' && isWordChar prev && headWord rest then [] :: splitPlusGo c rest
       else consHead c (splitPlusGo c rest)) := rfl

theorem reSplitSeps_sep_congr (c₁ c₂ : Char) (h₁ : isSep c₁ = true) (h₂ : isSep c₂ = true)
    (r : List Char) : ∀ l, reSplitSeps (l ++ c₁ :: r) = reSplitSeps (l ++ c₂ :: r) := by
  intro l
  induction l with
  | nil =>
    simp only [List.nil_append, reSplitSeps_cons, h₁, h₂, if_true]
  | cons a l' ih =>
    rw [List.cons_append, List.cons_append, reSplitSeps_cons, reSplitSeps_cons]
    by_cases ha : isSep a
    · rw [if_pos ha, if_pos ha]
      rcases l' with _ | ⟨d, l''⟩
      · simp only [List.nil_append] at ih ⊢
        rw [if_pos h₁, if_pos h₂]
        exact ih
      · simp only [List.cons_append] at ih ⊢
        by_cases hd : isSep d
        · rw [if_pos hd, if_pos hd]
          exact ih
        · rw [if_neg hd, if_neg hd, ih]
    · rw [if_neg ha, if_neg ha, ih]

theorem parse_listL_sep_congr (c₁ c₂ : Char) (h₁ : isSep c₁ = true) (h₂ : isSep c₂ = true)
    (l r : List Char) : parse_listL (l ++ c₁ :: r) = parse_listL (l ++ c₂ :: r) := by
  unfold parse_listL
  rw [reSplitSeps_sep_congr c₁ c₂ h₁ h₂ r l]

theorem reSplitSeps_nonsep_prepend (a : List Char) :
    (∀ c ∈ a, isSep c = false) → ∀ t,
    reSplitSeps (a ++ t) = (match reSplitSeps t with
      | s :: ss => (a ++ s) :: ss
      | [] => [a]) := by
  induction a with
  | nil =>
    intro _ t
    simp only [List.nil_append]
    rcases h : reSplitSeps t with _ | ⟨s, ss⟩
    · exact absurd h (reSplitSeps_ne_nil t)
    · simp
  | cons x a' ih =>
    intro ha t
    have hx : isSep x = false := ha x (List.mem_cons_self _ _)
    have ha' : ∀ c ∈ a', isSep c = false := fun c hc => ha c (List.mem_cons_of_mem _ hc)
    rw [List.cons_append, reSplitSeps_cons, if_neg (by simp [hx]), ih ha' t]
    rcases h : reSplitSeps t with _ | ⟨s, ss⟩ <;> simp

theorem reSplitSeps_nonsep (l : List Char) (hl : ∀ c ∈ l, isSep c = false) :
    reSplitSeps l = [l] := by
  have := reSplitSeps_nonsep_prepend l hl []
  simpa [reSplitSeps] using this

theorem splitPlusGo_plus_words (b : List Char) (hb : b ≠ [])
    (hbw : ∀ c ∈ b, isWordChar c = true) :
    ∀ (a' : List Char) (prev : Char), (∀ c ∈ a', isWordChar c = true) →
    isWordChar prev = true →
    splitPlusGo prev (a' ++ '+' :: b) = [a', b] := by
  intro a'
  induction a' with
  | nil =>
    intro prev _ hprev
    have hhead : headWord b = true := by
      rcases b with _ | ⟨d, b'⟩
      · exact absurd rfl hb
      · simpa [headWord] using hbw d (List.mem_cons_self _ _)
    have hnp : '+' ∉ b := fun hm => by
      have := hbw '+' hm
      exact absurd this (by decide)
    rw [List.nil_append, splitPlusGo_cons]
    rw [if_pos (by simp [hprev, hhead])]
    rw [splitPlusGo_noPlus _ _ hnp]
  | cons y a'' ih =>
    intro prev hw hprev
    have hy : isWordChar y = true := hw y (List.mem_cons_self _ _)
    have hw' : ∀ c ∈ a'', isWordChar c = true := fun c hc => hw c (List.mem_cons_of_mem _ hc)
    rw [List.cons_append, splitPlusGo_cons]
    rw [if_neg (by simp [isWordChar_ne_plus y hy])]
    rw [ih y hw' hy]
    simp [consHead]

theorem splitPlus_plus_words (a b : List Char) (ha : a ≠ []) (hb : b ≠ [])
    (haw : ∀ c ∈ a, isWordChar c = true) (hbw : ∀ c ∈ b, isWordChar c = true) :
    splitPlus (a ++ '+' :: b) = [a, b] := by
  rcases a with _ | ⟨x, a'⟩
  · exact absurd rfl ha
  · have hx : isWordChar x = true := haw x (List.mem_cons_self _ _)
    have ha' : ∀ c ∈ a', isWordChar c = true := fun c hc => haw c (List.mem_cons_of_mem _ hc)
    rw [List.cons_append]
    show consHead x (splitPlusGo x (a' ++ '+' :: b)) = [x :: a', b]
    rw [splitPlusGo_plus_words b hb hbw a' x ha' hx]
    simp [consHead]

theorem processToken_word (t : List Char) (ht : t ≠ [])
    (htw : ∀ c ∈ t, isWordChar c = true) : processToken t = [t] := by
  have hnw : ∀ c ∈ t, c.isWhitespace = false := fun c hc =>
    isSep_false_not_ws c (isWordChar_not_sep c (htw c hc))
  have hplusfree : '+' ∉ t := fun hm => absurd (htw '+' hm) (by decide)
  have htp : t ≠ ['+'] := by
    intro he
    exact hplusfree (he ▸ List.mem_cons_self _ _)
  unfold processToken
  dsimp only
  rw [pyStrip_no_ws t hnw]
  rw [if_neg (by simp [ht, htp])]
  rw [splitPlus_noPlus t hplusfree]
  simp [List.filterMap, pyStrip_no_ws t hnw, ht]

end ChemicAlly

namespace ChemicAlly

theorem parse_listL_plus_words (a b : List Char) (ha : a ≠ []) (hb : b ≠ [])
    (haw : ∀ c ∈ a, isWordChar c = true) (hbw : ∀ c ∈ b, isWordChar c = true) :
    parse_listL (a ++ '+' :: b) = [a, b] := by
  have hchars : ∀ c ∈ a ++ '+' :: b, isSep c = false := by
    intro c hc
    rcases List.mem_append.1 hc with hc | hc
    · exact isWordChar_not_sep c (haw c hc)
    · rcases List.mem_cons.1 hc with hc | hc
      · subst hc; decide
      · exact isWordChar_not_sep c (hbw c hc)
  have hnw : ∀ c ∈ a ++ '+' :: b, c.isWhitespace = false := fun c hc =>
    isSep_false_not_ws c (hchars c hc)
  have hne : a ++ '+' :: b ≠ [] := by simp
  have hne2 : a ++ '+' :: b ≠ ['+'] := by
    intro he
    rcases a with _ | ⟨x, a'⟩
    · exact ha rfl
    · rw [List.cons_append] at he
      injection he with he1 he2
      simp at he2
  unfold parse_listL
  rw [reSplitSeps_nonsep _ hchars]
  simp only [List.flatMap_cons, List.flatMap_nil, List.append_nil]
  unfold processToken
  dsimp only
  rw [pyStrip_no_ws _ hnw]
  rw [if_neg (by simp [hne, hne2])]
  rw [splitPlus_plus_words a b ha hb haw hbw]
  have hanw : ∀ c ∈ a, c.isWhitespace = false := fun c hc =>
    isSep_false_not_ws c (isWordChar_not_sep c (haw c hc))
  have hbnw : ∀ c ∈ b, c.isWhitespace = false := fun c hc =>
    isSep_false_not_ws c (isWordChar_not_sep c (hbw c hc))
  simp [List.filterMap, pyStrip_no_ws a hanw, pyStrip_no_ws b hbnw, ha, hb]

theorem parse_listL_space_words (a b : List Char) (ha : a ≠ []) (hb : b ≠ [])
    (haw : ∀ c ∈ a, isWordChar c = true) (hbw : ∀ c ∈ b, isWordChar c = true) :
    parse_listL (a ++ ' ' :: b) = [a, b] := by
  have hanonsep : ∀ c ∈ a, isSep c = false := fun c hc => isWordChar_not_sep c (haw c hc)
  have hsb : reSplitSeps (' ' :: b) = [[], b] := by
    rw [reSplitSeps_cons, if_pos (by decide)]
    rcases b with _ | ⟨d, b'⟩
    · exact absurd rfl hb
    · dsimp only
      rw [if_neg (by simp [isWordChar_not_sep d (hbw d (List.mem_cons_self _ _))])]
      rw [reSplitSeps_nonsep _ (fun c hc => isWordChar_not_sep c (hbw c hc))]
  unfold parse_listL
  rw [reSplitSeps_nonsep_prepend a hanonsep (' ' :: b), hsb]
  dsimp only
  rw [List.append_nil]
  simp only [List.flatMap_cons, List.flatMap_nil, List.append_nil]
  rw [processToken_word a ha haw, processToken_word b hb hbw]
  rfl

end ChemicAlly

namespace ChemicAlly

theorem validateToken_stable (lib : ChemLib) (t : String)
    (h : (looksLikeFormula t.data = true ∧ lib.fromFormulaOk t = true) ∨
         (lib.readSmiles t = none ∧ lib.fromFormulaOk t = true)) :
    validateToken lib t = some t := by
  unfold validateToken
  rcases h with ⟨h1, h2⟩ | ⟨h1, h2⟩
  · rw [if_pos (by simp [h1, h2])]
  · by_cases hl : (looksLikeFormula t.data && lib.fromFormulaOk t) = true
    · rw [if_pos hl]
    · rw [if_neg hl, h1, if_pos h2]

theorem validate_cons (lib : ChemLib) (t : String) (rest : List String) :
    validate lib (t :: rest) =
      (match validateToken lib t, validate lib rest with
       | some t2, some rest2 => some (t2 :: rest2)
       | _, _ => none) := rfl

theorem validate_stable (lib : ChemLib) (l : List String)
    (h : ∀ t ∈ l, (looksLikeFormula t.data = true ∧ lib.fromFormulaOk t = true) ∨
         (lib.readSmiles t = none ∧ lib.fromFormulaOk t = true)) :
    validate lib l = some l := by
  induction l with
  | nil => rfl
  | cons t rest ih =>
    have ht := validateToken_stable lib t (h t (List.mem_cons_self _ _))
    have hrest := ih (fun u hu => h u (List.mem_cons_of_mem _ hu))
    rw [validate_cons, ht, hrest]

end ChemicAlly

namespace ChemicAlly

instance : IsTrans String canonOrder := ⟨by
  intro a b c hab hbc
  rcases hab with h | ⟨h1, h2⟩ <;> rcases hbc with h3 | ⟨h4, h5⟩
  · exact Or.inl (lt_trans h h3)
  · exact Or.inl (lt_of_lt_of_le h (le_of_eq h4))
  · exact Or.inl (lt_of_le_of_lt (le_of_eq h1) h3)
  · exact Or.inr ⟨h1.trans h4, le_trans h2 h5⟩⟩

instance : IsAntisymm String canonOrder := ⟨by
  intro a b hab hba
  rcases hab with h | ⟨h1, h2⟩ <;> rcases hba with h3 | ⟨h4, h5⟩
  · exact absurd h3 (lt_asymm h)
  · rw [h4] at h
    exact absurd h (lt_irrefl _)
  · rw [h1] at h3
    exact absurd h3 (lt_irrefl _)
  · exact le_antisymm h2 h5⟩

instance : IsTotal String canonOrder := ⟨by
  intro a b
  rcases Nat.lt_trichotomy (elemRank a) (elemRank b) with h | h | h
  · exact Or.inl (Or.inl h)
  · rcases le_total a b with h2 | h2
    · exact Or.inl (Or.inr ⟨h, h2⟩)
    · exact Or.inr (Or.inr ⟨h.symm, h2⟩)
  · exact Or.inr (Or.inl h)⟩

theorem lookupCount_cons (e : String) (p : String × Nat) (rest : List (String × Nat)) :
    lookupCount e (p :: rest) = if p.1 = e then some p.2 else lookupCount e rest := rfl

theorem removeKey_cons (e : String) (p : String × Nat) (rest : List (String × Nat)) :
    removeKey e (p :: rest) =
      (if p.1 = e then removeKey e rest else p :: removeKey e rest) := by
  unfold removeKey
  rw [List.filter_cons]
  by_cases hp : p.1 = e <;> simp [hp]

theorem removeKey_of_not_mem (e : String) (l : List (String × Nat))
    (h : e ∉ l.map Prod.fst) : removeKey e l = l := by
  induction l with
  | nil => rfl
  | cons p rest ih =>
    simp only [List.map_cons, List.mem_cons, not_or] at h
    rw [removeKey_cons, if_neg (fun hpe => h.1 hpe.symm), ih h.2]

theorem mem_removeKey_map_fst (e el : String) (l : List (String × Nat))
    (h : el ∈ (removeKey e l).map Prod.fst) : ¬ el = e ∧ el ∈ l.map Prod.fst := by
  unfold removeKey at h
  rw [List.mem_map] at h
  obtain ⟨p, hp, hpe⟩ := h
  rw [List.mem_filter] at hp
  obtain ⟨hpl, hpd⟩ := hp
  rw [decide_eq_true_eq] at hpd
  subst hpe
  exact ⟨hpd, List.mem_map_of_mem _ hpl⟩

theorem lookupCount_removeKey_ne (e e2 : String) (l : List (String × Nat)) (h : ¬ e = e2) :
    lookupCount e (removeKey e2 l) = lookupCount e l := by
  induction l with
  | nil => rfl
  | cons p rest ih =>
    rw [removeKey_cons]
    by_cases hp : p.1 = e2
    · rw [if_pos hp, ih, lookupCount_cons,
        if_neg (fun hpe => h (by rw [← hpe]; exact hp))]
    · rw [if_neg hp, lookupCount_cons, lookupCount_cons, ih]

theorem mem_optKey (e : String) (l : List (String × Nat)) :
    ∀ x ∈ optKey e l, x = e := by
  intro x hx
  unfold optKey at hx
  split at hx <;> simp_all

theorem counts_perm_key (e : String) (l : List (String × Nat))
    (hnd : (l.map Prod.fst).Nodup) :
    (optKey e l ++ (removeKey e l).map Prod.fst).Perm (l.map Prod.fst) := by
  induction l with
  | nil => simp [optKey, lookupCount, removeKey]
  | cons p rest ih =>
    simp only [List.map_cons] at hnd ⊢
    have hnd1 : p.1 ∉ rest.map Prod.fst := (List.nodup_cons.1 hnd).1
    have hnd2 := (List.nodup_cons.1 hnd).2
    rw [removeKey_cons]
    by_cases hp : p.1 = e
    · rw [if_pos hp]
      have hlook : lookupCount e (p :: rest) = some p.2 := by
        rw [lookupCount_cons, if_pos hp]
      unfold optKey
      rw [hlook, removeKey_of_not_mem e rest (hp ▸ hnd1)]
      rw [← hp]
      exact List.Perm.refl _
    · rw [if_neg hp]
      have hlook : lookupCount e (p :: rest) = lookupCount e rest := by
        rw [lookupCount_cons, if_neg hp]
      unfold optKey
      rw [hlook, List.map_cons]
      exact List.Perm.trans List.perm_middle ((ih hnd2).cons p.1)

end ChemicAlly

namespace ChemicAlly

theorem elemRank_of_ne (e : String) (h1 : ¬ e = "C") (h2 : ¬ e = "H") :
    elemRank e = 2 := by
  simp [elemRank, h1, h2]

theorem nodup_removeKey (e : String) (l : List (String × Nat))
    (hnd : (l.map Prod.fst).Nodup) : ((removeKey e l).map Prod.fst).Nodup := by
  induction l with
  | nil => simp [removeKey]
  | cons p rest ih =>
    simp only [List.map_cons, List.nodup_cons] at hnd
    rw [removeKey_cons]
    by_cases hp : p.1 = e
    · rw [if_pos hp]
      exact ih hnd.2
    · rw [if_neg hp, List.map_cons, List.nodup_cons]
      refine ⟨fun hm => hnd.1 (mem_removeKey_map_fst e p.1 rest hm).2, ih hnd.2⟩

theorem insertionSort_canon_split (l : List (String × Nat))
    (hnd : (l.map Prod.fst).Nodup) :
    List.insertionSort canonOrder (l.map Prod.fst) =
      optKey "C" l ++ optKey "H" (removeKey "C" l) ++
        List.insertionSort (fun a b => a ≤ b)
          ((removeKey "H" (removeKey "C" l)).map Prod.fst) := by
  have hnd1 : ((removeKey "C" l).map Prod.fst).Nodup := nodup_removeKey _ _ hnd
  have hmemS : ∀ x ∈ List.insertionSort (fun a b => a ≤ b)
      ((removeKey "H" (removeKey "C" l)).map Prod.fst),
      ¬ x = "C" ∧ ¬ x = "H" := by
    intro x hx
    have hx2 := (List.perm_insertionSort (fun a b => a ≤ b) _).mem_iff.1 hx
    have h3 := mem_removeKey_map_fst "H" x _ hx2
    have h4 := mem_removeKey_map_fst "C" x _ h3.2
    exact ⟨h4.1, h3.1⟩
  apply List.eq_of_perm_of_sorted (r := canonOrder)
  · -- permutation
    refine List.Perm.trans (List.perm_insertionSort canonOrder _) ?_
    refine List.Perm.symm ?_
    rw [List.append_assoc]
    refine List.Perm.trans ?_ (counts_perm_key "C" l hnd)
    refine List.Perm.append_left (optKey "C" l) ?_
    refine List.Perm.trans ?_ (counts_perm_key "H" (removeKey "C" l) hnd1)
    exact List.Perm.append_left _ (List.perm_insertionSort _ _)
  · exact List.sorted_insertionSort canonOrder _
  · -- sortedness of the assembled list
    rw [List.append_assoc]
    show List.Pairwise canonOrder _
    rw [List.pairwise_append]
    refine ⟨?_, ?_, ?_⟩
    · -- optKey "C" is trivially pairwise
      unfold optKey
      split <;> simp
    · rw [List.pairwise_append]
      refine ⟨?_, ?_, ?_⟩
      · unfold optKey
        split <;> simp
      · -- sorted alphabetically, all of rank 2
        have hs := List.sorted_insertionSort (fun a b => a ≤ b)
          ((removeKey "H" (removeKey "C" l)).map Prod.fst)
        exact List.Pairwise.imp_of_mem
          (fun ha hb hle => Or.inr
            ⟨by rw [elemRank_of_ne _ (hmemS _ ha).1 (hmemS _ ha).2,
                    elemRank_of_ne _ (hmemS _ hb).1 (hmemS _ hb).2],
             hle⟩) hs
      · intro a ha b hb
        have ha2 := mem_optKey "H" _ a ha
        subst ha2
        have hb2 := hmemS b hb
        exact Or.inl (by rw [elemRank_of_ne b hb2.1 hb2.2]; decide)
    · intro a ha b hb
      have ha2 := mem_optKey "C" _ a ha
      subst ha2
      rcases List.mem_append.1 hb with hb | hb
      · have hb2 := mem_optKey "H" _ b hb
        subst hb2
        exact Or.inl (by decide)
      · have hb2 := hmemS b hb
        exact Or.inl (by rw [elemRank_of_ne b hb2.1 hb2.2]; decide)

end ChemicAlly

namespace ChemicAlly

theorem smiles_to_formula_eq_canonical (m : Molecule)
    (hnd : (m.counts.map Prod.fst).Nodup) :
    smiles_to_formula m = canonicalFormulaSpec m := by
  unfold smiles_to_formula canonicalFormulaSpec
  dsimp only
  rw [insertionSort_canon_split m.counts hnd]
  rw [List.map_append, List.map_append]
  have hA : (optKey "C" m.counts).map
      (fun el => entryStr el ((lookupCount el m.counts).getD 0)) =
      (match lookupCount "C" m.counts with
       | some n => [entryStr "C" n]
       | none => []) := by
    unfold optKey
    rcases hC : lookupCount "C" m.counts with _ | n
    · rfl
    · simp [hC]
  have hHlook : lookupCount "H" (removeKey "C" m.counts) = lookupCount "H" m.counts :=
    lookupCount_removeKey_ne "H" "C" m.counts (by decide)
  have hB : (optKey "H" (removeKey "C" m.counts)).map
      (fun el => entryStr el ((lookupCount el m.counts).getD 0)) =
      (match lookupCount "H" (removeKey "C" m.counts) with
       | some n => [entryStr "H" n]
       | none => []) := by
    unfold optKey
    rw [hHlook]
    rcases hH : lookupCount "H" m.counts with _ | n
    · rfl
    · simp [hH]
  have hS : (List.insertionSort (fun a b => a ≤ b)
        ((removeKey "H" (removeKey "C" m.counts)).map Prod.fst)).map
      (fun el => entryStr el ((lookupCount el m.counts).getD 0)) =
      (List.insertionSort (fun a b => a ≤ b)
        ((removeKey "H" (removeKey "C" m.counts)).map Prod.fst)).map
      (fun el => entryStr el
        ((lookupCount el (removeKey "H" (removeKey "C" m.counts))).getD 0)) := by
    apply List.map_congr_left
    intro el hel
    have hel2 := (List.perm_insertionSort (fun a b => a ≤ b) _).mem_iff.1 hel
    have h3 := mem_removeKey_map_fst "H" el _ hel2
    have h4 := mem_removeKey_map_fst "C" el _ h3.2
    rw [lookupCount_removeKey_ne el "H" _ h3.1, lookupCount_removeKey_ne el "C" _ h4.1]
  rw [hA, hB, hS]

end ChemicAlly

namespace ChemicAlly

theorem concUnit_factor_pos (u : ConcUnit) : 0 < u.factor := by
  cases u <;> norm_num [ConcUnit.factor]

theorem volUnit_factor_pos (u : VolUnit) : 0 < u.factor := by
  cases u <;> norm_num [VolUnit.factor]

theorem calculate_ok (i : DilutionInput) (mwEff : Option ℚ)
    (h1 : i.missingCount = 1) (h2 : i.anyNonpositive = false) :
    ∃ r : DilutionResult, calculate i mwEff = .ok r ∧
      r.missing_property = i.missingName ∧
      filled i.c1 i.c1_unit.factor r.missing_value *
        filled i.v1 i.v1_unit.factor r.missing_value =
      filled i.c2 i.c2_unit.factor r.missing_value *
        filled i.v2 i.v2_unit.factor r.missing_value ∧
      r.mass_g = massSpec mwEff i := by
  rcases hc1 : i.c1 with _ | c1 <;> rcases hv1 : i.v1 with _ | v1 <;>
    rcases hc2 : i.c2 with _ | c2 <;> rcases hv2 : i.v2 with _ | v2 <;>
    simp_all [DilutionInput.missingCount, DilutionInput.anyNonpositive,
      List.countP_cons, calculate, massSpec, DilutionInput.missingName, filled]
  · have hv1p : 0 < v1 := h2.1
    have hne : v1 * i.v1_unit.factor ≠ 0 :=
      (mul_pos hv1p (volUnit_factor_pos _)).ne'
    exact div_mul_cancel₀ _ hne
  · have hc1p : 0 < c1 := h2.1
    have hne : c1 * i.c1_unit.factor ≠ 0 :=
      (mul_pos hc1p (concUnit_factor_pos _)).ne'
    rw [mul_comm]
    exact div_mul_cancel₀ _ hne
  · have hv2p : 0 < v2 := h2.2.2
    have hne : v2 * i.v2_unit.factor ≠ 0 :=
      (mul_pos hv2p (volUnit_factor_pos _)).ne'
    exact (div_mul_cancel₀ _ hne).symm
  · have hc2p : 0 < c2 := h2.2.2
    have hne : c2 * i.c2_unit.factor ≠ 0 :=
      (mul_pos hc2p (concUnit_factor_pos _)).ne'
    rw [mul_comm (c2 * i.c2_unit.factor)]
    exact (div_mul_cancel₀ _ hne).symm

theorem massSpec_mw_none (i : DilutionInput) : massSpec none i = none := by
  unfold massSpec
  rcases i.c2 with _ | c2 <;> rcases i.v2 with _ | v2 <;> rfl

theorem massSpec_c2_none (mwEff : Option ℚ) (i : DilutionInput) (h : i.c2 = none) :
    massSpec mwEff i = none := by
  unfold massSpec
  rw [h]
  rcases mwEff with _ | m <;> rcases i.v2 with _ | v2 <;> rfl

theorem massSpec_v2_none (mwEff : Option ℚ) (i : DilutionInput) (h : i.v2 = none) :
    massSpec mwEff i = none := by
  unfold massSpec
  rw [h]
  rcases mwEff with _ | m <;> rcases i.c2 with _ | c2 <;> rfl

end ChemicAlly

namespace ChemicAlly

/-- C1 (amended): for every dilution input with exactly one absent slot,
the other three provided with positive magnitudes, and passing the
consistency checks, `solve` returns the absent slot's name and a value that
satisfies the conservation law `c1*v1 = c2*v2` in base units. -/
theorem dilution_solve_conservation (i : DilutionInput) (mw : Option ℚ)
    (sf : Bool) (fm : Option ℚ)
    (h1 : i.missingCount = 1) (h2 : i.anyNonpositive = false)
    (h3 : i.volInconsistent = false) (h4 : i.concInconsistent = false) :
    ∃ r : DilutionResult, solve i mw sf fm = .ok r ∧
      r.missing_property = i.missingName ∧
      filled i.c1 i.c1_unit.factor r.missing_value *
        filled i.v1 i.v1_unit.factor r.missing_value =
      filled i.c2 i.c2_unit.factor r.missing_value *
        filled i.v2 i.v2_unit.factor r.missing_value := by
  obtain ⟨r, hr, hname, hcons, -⟩ := calculate_ok i (effectiveMW mw sf fm) h1 h2
  exact ⟨r, by simp [solve, h1, h2, h3, h4, hr], hname, hcons⟩

unseal Rat.mul Rat.inv in
/-- C1 counterexample: an input with exactly one absent slot and three
positive values on which `solve` raises `InconsistencyError` (v1 = 2 L ≥
v2 = 1 L) instead of returning a missing value, refuting the claim as
stated; in the example c1 is absent, v1 = 2 L, c2 = 1 mol/L, v2 = 1 L. -/
theorem dilution_solve_conservation_cex :
    DilutionInput.missingCount ⟨none, .molL, some 2, .L, some 1, .molL, some 1, .L⟩ = 1 ∧
    DilutionInput.anyNonpositive ⟨none, .molL, some 2, .L, some 1, .molL, some 1, .L⟩ = false ∧
    solve ⟨none, .molL, some 2, .L, some 1, .molL, some 1, .L⟩ none false none =
      .error .inconsistency := by
  decide

unseal Rat.mul Rat.inv in
/-- C1 witness: c1 = 1 mol/L, c2 = 0.5 mol/L, v2 = 2 L with v1 absent gives
v1 = 1 L, satisfying the conservation law. -/
theorem dilution_solve_conservation_witness :
    (solve ⟨some 1, .molL, none, .L, some (1/2), .molL, some 2, .L⟩ none false none =
      .ok ⟨"v1", 1, none⟩) ∧
    (∃ r : DilutionResult,
      solve ⟨some 1, .molL, none, .L, some (1/2), .molL, some 2, .L⟩ none false none = .ok r ∧
      r.missing_property =
        DilutionInput.missingName ⟨some 1, .molL, none, .L, some (1/2), .molL, some 2, .L⟩ ∧
      filled (some 1) ConcUnit.molL.factor r.missing_value *
        filled none VolUnit.L.factor r.missing_value =
      filled (some (1/2)) ConcUnit.molL.factor r.missing_value *
        filled (some 2) VolUnit.L.factor r.missing_value) :=
  ⟨by decide,
   dilution_solve_conservation _ none false none (by decide) (by decide) (by decide) (by decide)⟩

/-- C2: `solve` raises `InvalidInputError` exactly when the number of absent
slots differs from one or some provided value is `<= 0`; in particular no
`InvalidInputError` is raised when exactly one slot is absent and all
provided values are strictly positive. -/
theorem dilution_solve_invalidInput_iff (i : DilutionInput) (mw : Option ℚ)
    (sf : Bool) (fm : Option ℚ) :
    solve i mw sf fm = .error .invalidInput ↔
      (i.missingCount ≠ 1 ∨ i.anyNonpositive = true) := by
  by_cases h1 : i.missingCount ≠ 1
  · simp [solve, h1]
  · rw [not_not] at h1
    by_cases h2 : i.anyNonpositive = true
    · simp [solve, h1, h2]
    · have h2f : i.anyNonpositive = false := by simpa using h2
      obtain ⟨r, hr, -, -, -⟩ := calculate_ok i (effectiveMW mw sf fm) h1 h2f
      by_cases h3 : i.volInconsistent = true
      · simp [solve, h1, h2, h3]
      · by_cases h4 : i.concInconsistent = true
        · simp [solve, h1, h2, h3, h4]
        · simp [solve, h1, h2, h3, h4, hr]

/-- C3 (amended): among inputs that pass the `InvalidInputError` validation
(exactly one absent slot, all provided values positive), `solve` raises
`InconsistencyError` exactly when both volumes are present with
v1 >= v2, or both concentrations are present with c1 < c2, in base units. -/
theorem dilution_solve_inconsistency_iff (i : DilutionInput) (mw : Option ℚ)
    (sf : Bool) (fm : Option ℚ)
    (h1 : i.missingCount = 1) (h2 : i.anyNonpositive = false) :
    solve i mw sf fm = .error .inconsistency ↔
      (i.volInconsistent = true ∨ i.concInconsistent = true) := by
  obtain ⟨r, hr, -, -, -⟩ := calculate_ok i (effectiveMW mw sf fm) h1 h2
  by_cases h3 : i.volInconsistent = true
  · simp [solve, h1, h2, h3]
  · by_cases h4 : i.concInconsistent = true
    · simp [solve, h1, h2, h3, h4]
    · simp [solve, h1, h2, h3, h4, hr]

unseal Rat.mul Rat.inv in
/-- C3 counterexample: with all four slots present (zero absent) and
v1 = 2 L >= v2 = 1 L, `solve` raises `InvalidInputError` (the slot-count
check fires first), not `InconsistencyError`, refuting the claim as
stated. -/
theorem dilution_solve_inconsistency_cex :
    DilutionInput.volInconsistent ⟨some 1, .molL, some 2, .L, some 1, .molL, some 1, .L⟩ = true ∧
    solve ⟨some 1, .molL, some 2, .L, some 1, .molL, some 1, .L⟩ none false none =
      .error .invalidInput ∧
    (DilutionError.invalidInput ≠ DilutionError.inconsistency) := by
  decide

unseal Rat.mul Rat.inv in
/-- C3 witness: a valid input with c1 absent and v1 = 2 L >= v2 = 1 L is
rejected with `InconsistencyError`. -/
theorem dilution_solve_inconsistency_iff_witness :
    (solve ⟨none, .molL, some 2, .L, some 1, .molL, some 1, .L⟩ none false none =
      .error .inconsistency ↔
     (DilutionInput.volInconsistent ⟨none, .molL, some 2, .L, some 1, .molL, some 1, .L⟩ = true ∨
      DilutionInput.concInconsistent ⟨none, .molL, some 2, .L, some 1, .molL, some 1, .L⟩ = true)) :=
  dilution_solve_inconsistency_iff _ none false none (by decide) (by decide)

/-- C6: whenever the effective molecular weight is available (nonzero) and
c2 and v2 are both provided, `solve` returns
mass_g = (c2 in mol/L) * (v2 in L) * molecular_weight. -/
theorem dilution_solve_mass (i : DilutionInput) (mw : Option ℚ) (sf : Bool)
    (fm : Option ℚ) (m c2 v2 : ℚ)
    (h1 : i.missingCount = 1) (h2 : i.anyNonpositive = false)
    (h3 : i.volInconsistent = false) (h4 : i.concInconsistent = false)
    (hc2 : i.c2 = some c2) (hv2 : i.v2 = some v2)
    (hmw : effectiveMW mw sf fm = some m) (hm : m ≠ 0) :
    ∃ r : DilutionResult, solve i mw sf fm = .ok r ∧
      r.mass_g = some ((c2 * i.c2_unit.factor) * (v2 * i.v2_unit.factor) * m) := by
  obtain ⟨r, hr, -, -, hmass⟩ := calculate_ok i (effectiveMW mw sf fm) h1 h2
  refine ⟨r, by simp [solve, h1, h2, h3, h4, hr], ?_⟩
  rw [hmass, hmw]
  unfold massSpec
  rw [hc2, hv2]
  simp [hm]

unseal Rat.mul Rat.inv in
/-- C6 witness: c2 = 0.5 mol/L, v2 = 2 L, molecular weight 58.44 g/mol
(c1 absent, v1 = 1 L) gives mass_g = 58.44 g. -/
theorem dilution_solve_mass_witness :
    ((1/2 * (1:ℚ)) * (2 * 1) * (5844/100) = 5844/100) ∧
    (∃ r : DilutionResult,
      solve ⟨none, .molL, some 1, .L, some (1/2), .molL, some 2, .L⟩
        (some (5844/100)) false none = .ok r ∧
      r.mass_g = some (((1/2) * ConcUnit.molL.factor) * (2 * VolUnit.L.factor) * (5844/100))) :=
  ⟨by decide,
   dilution_solve_mass _ (some (5844/100)) false none (5844/100) (1/2) 2
     (by decide) (by decide) (by decide) (by decide) (by decide) (by decide)
     (by decide) (by decide)⟩

/-- C7: on a valid consistent input, when molecular-weight resolution from
the solute formula fails (no truthy explicit weight, formula lookup fails)
or the missing slot is c2 or v2, `solve` still succeeds, returns the
missing property normally, and simply omits mass_g. -/
theorem dilution_solve_mass_omitted (i : DilutionInput) (mw : Option ℚ)
    (sf : Bool) (fm : Option ℚ)
    (h1 : i.missingCount = 1) (h2 : i.anyNonpositive = false)
    (h3 : i.volInconsistent = false) (h4 : i.concInconsistent = false)
    (h : (pyTruthy mw = false ∧ sf = true ∧ fm = none) ∨ i.c2 = none ∨ i.v2 = none) :
    ∃ r : DilutionResult, solve i mw sf fm = .ok r ∧ r.mass_g = none ∧
      r.missing_property = i.missingName := by
  obtain ⟨r, hr, hname, -, hmass⟩ := calculate_ok i (effectiveMW mw sf fm) h1 h2
  refine ⟨r, by simp [solve, h1, h2, h3, h4, hr], ?_, hname⟩
  rw [hmass]
  rcases h with ⟨ha, hb, hc⟩ | h | h
  · have hmweff : effectiveMW mw sf fm = none := by
      simp [effectiveMW, ha, hb, hc]
    rw [hmweff, massSpec_mw_none]
  · exact massSpec_c2_none _ _ h
  · exact massSpec_v2_none _ _ h

unseal Rat.mul Rat.inv in
/-- C7 witness: v2 absent with a molecular weight supplied: the result is
returned with the missing property and no mass. -/
theorem dilution_solve_mass_omitted_witness :
    ∃ r : DilutionResult,
      solve ⟨some 1, .molL, some 1, .L, some (1/2), .molL, none, .L⟩
        (some (5844/100)) false none = .ok r ∧
      r.mass_g = none ∧
      r.missing_property =
        DilutionInput.missingName ⟨some 1, .molL, some 1, .L, some (1/2), .molL, none, .L⟩ :=
  dilution_solve_mass_omitted _ (some (5844/100)) false none
    (by decide) (by decide) (by decide) (by decide) (Or.inr (Or.inr (by decide)))

end ChemicAlly

namespace ChemicAlly

/-- C4 (amended): a token that fails the formula heuristic is attempted as
SMILES first; it is returned unchanged exactly in the fallback case, when
SMILES decoding fails and chempy accepts it as a formula. -/
theorem normalize_heuristic_unchanged (lib : ChemLib) (t : String)
    (h1 : looksLikeFormula t.data = false) (h2 : lib.readSmiles t = none)
    (h3 : lib.fromFormulaOk t = true) (h4 : parse_list t = [t]) :
    normalize lib t = some [t] := by
  unfold normalize
  rw [h4]
  refine validate_stable lib [t] ?_
  intro u hu
  rw [List.mem_singleton] at hu
  subst hu
  exact Or.inr ⟨h2, h3⟩

/-- C4 counterexample: the token `CC` is a valid formula (chempy accepts
it), has no charge suffix, no uppercase-lowercase pair, and is not a short
all-letter token with a non-carbon character, yet `normalize` rewrites it
to `C2H6` (it decodes as the SMILES of ethane), refuting the claim that
such tokens are returned as entered. -/
theorem normalize_heuristic_unchanged_cex :
    looksLikeFormula "CC".data = false ∧
    exLib.fromFormulaOk "CC" = true ∧
    normalize exLib "CC" = some ["C2H6"] ∧
    ¬ (["C2H6"] = (["CC"] : List String)) := by
  decide

/-- C4 witness: `CO2` fails the heuristic, fails SMILES decoding, parses as
a formula, and is returned unchanged. -/
theorem normalize_heuristic_unchanged_witness :
    normalize exLib "CO2" = some ["CO2"] :=
  normalize_heuristic_unchanged exLib "CO2" (by decide) (by decide) (by decide) (by decide)

/-- C5: the formula rendered for a decoded SMILES molecule lists carbon
first (if present), hydrogen second (if present), the remaining elements
alphabetically, each count omitted when exactly 1, with the charge suffix
appended when the total charge is nonzero (equality of the code's rendering
with the spec's canonical form, for any tally with distinct element keys);
in particular normalize "CCO" = ["C2H6O"] and normalize "[NH4+]" = ["H4N+"]. -/
theorem normalize_smiles_canonical_format :
    (∀ m : Molecule, (m.counts.map Prod.fst).Nodup →
      smiles_to_formula m = canonicalFormulaSpec m) ∧
    normalize exLib "CCO" = some ["C2H6O"] ∧
    normalize exLib "[NH4+]" = some ["H4N+"] :=
  ⟨fun m h => smiles_to_formula_eq_canonical m h, by decide, by decide⟩

/-- C5 witness: the ethanol tally C2 H6 O1 renders identically through the
code and through the spec's canonical form. -/
theorem normalize_smiles_canonical_format_witness :
    smiles_to_formula ⟨[("C", 2), ("H", 6), ("O", 1)], 0⟩ =
      canonicalFormulaSpec ⟨[("C", 2), ("H", 6), ("O", 1)], 0⟩ :=
  normalize_smiles_canonical_format.1 ⟨[("C", 2), ("H", 6), ("O", 1)], 0⟩ (by decide)

/-- C8: splitting behavior of `normalize`: `"H2O CO2"` splits and resolves
to `["H2O", "CO2"]`; any two separator characters (whitespace, comma,
semicolon) are interchangeable anywhere in the raw string; a `+` between
word characters splits exactly like whitespace; isolated `+` tokens are
skipped; and a trailing `+`/`-` charge marker is preserved (`"NH4+ Cl-"`). -/
theorem normalize_split_behavior :
    parse_list "H2O CO2" = ["H2O", "CO2"] ∧
    normalize exLib "H2O CO2" = some ["H2O", "CO2"] ∧
    (∀ c₁ c₂ : Char, isSep c₁ = true → isSep c₂ = true →
      ∀ l r : List Char, parse_listL (l ++ c₁ :: r) = parse_listL (l ++ c₂ :: r)) ∧
    (∀ a b : List Char, a ≠ [] → b ≠ [] →
      (∀ c ∈ a, isWordChar c = true) → (∀ c ∈ b, isWordChar c = true) →
      parse_listL (a ++ '+' :: b) = [a, b] ∧ parse_listL (a ++ ' ' :: b) = [a, b]) ∧
    parse_list "H2O,CO2" = ["H2O", "CO2"] ∧
    parse_list "H2O+CO2" = ["H2O", "CO2"] ∧
    parse_list "+ H2O + CO2 +" = ["H2O", "CO2"] ∧
    parse_list "NH4+ Cl-" = ["NH4+", "Cl-"] :=
  ⟨by decide, by decide,
   fun c₁ c₂ h₁ h₂ l r => parse_listL_sep_congr c₁ c₂ h₁ h₂ l r,
   fun a b ha hb haw hbw =>
     ⟨parse_listL_plus_words a b ha hb haw hbw,
      parse_listL_space_words a b ha hb haw hbw⟩,
   by decide, by decide, by decide, by decide⟩

/-- C8 witness: the separator interchange and the plus-vs-space splitting,
instantiated on the concrete tokens `H2O` and `CO2`. -/
theorem normalize_split_behavior_witness :
    (parse_listL ("H2O".data ++ ',' :: "CO2".data) =
      parse_listL ("H2O".data ++ ';' :: "CO2".data)) ∧
    parse_listL ("H2O".data ++ '+' :: "CO2".data) = ["H2O".data, "CO2".data] ∧
    parse_listL ("H2O".data ++ ' ' :: "CO2".data) = ["H2O".data, "CO2".data] :=
  ⟨normalize_split_behavior.2.2.1 ',' ';' (by decide) (by decide) "H2O".data "CO2".data,
   (normalize_split_behavior.2.2.2.1 "H2O".data "CO2".data (by decide) (by decide)
     (by decide) (by decide)).1,
   (normalize_split_behavior.2.2.2.1 "H2O".data "CO2".data (by decide) (by decide)
     (by decide) (by decide)).2⟩

/-- C9 (amended): `normalize` is idempotent on outputs all of whose tokens
either match the formula heuristic and parse as formulas, or fail SMILES
decoding and parse as formulas; it is not idempotent in general, because a
canonical formula that is itself a decodable SMILES is rewritten again on a
second run. -/
theorem normalize_idempotent_on_stable (lib : ChemLib) (l : List String)
    (hstable : ∀ t ∈ l,
      (looksLikeFormula t.data = true ∧ lib.fromFormulaOk t = true) ∨
      (lib.readSmiles t = none ∧ lib.fromFormulaOk t = true))
    (hsplit : parse_list (String.intercalate " " l) = l) :
    normalize lib (String.intercalate " " l) = some l := by
  unfold normalize
  rw [hsplit]
  exact validate_stable lib l hstable

/-- C9 counterexample: `normalize "[C]"` succeeds with output `["C"]`, but
re-running `normalize` on the joined output decodes `C` as the SMILES of
methane and returns `["CH4"]`, so the canonical output is not a fixed
point, refuting idempotence as stated. -/
theorem normalize_idempotent_cex :
    normalize exLib "[C]" = some ["C"] ∧
    normalize exLib (String.intercalate " " ["C"]) = some ["CH4"] ∧
    ¬ (some ["CH4"] = some (["C"] : List String)) := by
  decide

/-- C9 witness: the output `["H2O", "CO2"]` is stable, so re-running
`normalize` on its joined form returns it unchanged. -/
theorem normalize_idempotent_on_stable_witness :
    normalize exLib (String.intercalate " " ["H2O", "CO2"]) = some ["H2O", "CO2"] :=
  normalize_idempotent_on_stable exLib ["H2O", "CO2"] (by decide) (by decide)

/-- C10: every token produced by the splitting stage is a non-empty string
distinct from the bare token `+`, and an empty or whitespace-only raw
input yields the empty token list rather than an error. -/
theorem parse_list_tokens_wellformed :
    (∀ raw : String, ∀ t ∈ parse_list raw, ¬ t = "" ∧ ¬ t = "+") ∧
    (∀ raw : String, (∀ c ∈ raw.data, c.isWhitespace = true) → parse_list raw = []) := by
  constructor
  · intro raw t ht
    unfold parse_list at ht
    rw [List.mem_map] at ht
    obtain ⟨lc, hlc, hte⟩ := ht
    have h := parse_listL_props raw.data lc hlc
    constructor
    · intro he
      apply h.1
      rw [he] at hte
      have := congrArg String.data hte
      simpa using this.symm
    · intro he
      apply h.2
      rw [he] at hte
      have := congrArg String.data hte
      simpa using this
  · intro raw h
    unfold parse_list
    rw [parse_listL_ws raw.data h]
    rfl

/-- C10 witness: the raw input `"NH4+ + Cl-"` yields the token `NH4+`,
which is neither empty nor a bare plus; the whitespace-only input `"  "`
yields the empty list. -/
theorem parse_list_tokens_wellformed_witness :
    (¬ "NH4+" = "" ∧ ¬ "NH4+" = "+") ∧ parse_list "  " = [] :=
  ⟨parse_list_tokens_wellformed.1 "NH4+ + Cl-" "NH4+" (by decide),
   parse_list_tokens_wellformed.2 "  " (by decide)⟩

end ChemicAlly
